import Mathlib

/-!
# Verification of the copernicus UTXO cache subsystem and its callers

The repository's `src/` tree contains the callers of the UTXO cache
(`logic/utxo/coinscache.go`'s `AccessByTxid`) and the wallet
(`model/wallet/wallet.go`), but not the `model/utxo.CoinsCache`
implementation itself.  Following the specification (spec.md §3, §4), the
cache, its parent view and their operations are modelled from the spec's
words; `AccessByTxid` and `GetMinimumFee` are translated from the Go source.
-/

/-- An OutPoint identifies a transaction output: transaction hash plus output
index (spec §3).  The 256-bit hash is modelled as a natural number; no
arithmetic is ever performed on it.  The index is an unsigned 32-bit integer
in the source; every index manipulated here stays far below `2^32`. -/
structure OutPoint where
  txHash : Nat
  index : Nat
  deriving DecidableEq, Repr

/-- A Coin: output amount, locking script (opaque byte sequence), creation
height, coinbase flag (spec §3), plus the transient `spent` marker that the
spec attaches to a Coin inside the cache ("Carries a derived spent marker",
spec §2; AccessByTxid queries it via `IsSpent`).  A coin is never persisted
with `spent = true`. -/
structure Coin where
  amount : Int
  script : List Nat
  height : Nat
  isCoinBase : Bool
  spent : Bool
  deriving DecidableEq, Repr

/-- Coin.IsSpent from the source: the transient spent marker. -/
def Coin.IsSpent (c : Coin) : Bool := c.spent

/-- Cache entry (spec §3): the coin together with the `dirty` and `fresh`
bookkeeping flags. -/
structure CacheEntry where
  coin : Coin
  dirty : Bool
  fresh : Bool
  deriving DecidableEq, Repr

/-- Modelled from the spec: the persistent leaf `CoinsViewDB` (spec §4.3).
The store maps OutPoints to coins; `fails` is the environment flag that makes
`batchWrite` report a backing-store failure (disk I/O error, spec §7),
injected so that failure behaviour is expressible. -/
structure CoinsViewDB where
  store : OutPoint → Option Coin
  bestBlock : Nat
  fails : Bool

/-- Modelled from the spec: `haveCoin` of the persistent leaf is a direct key
lookup (spec §4.3). -/
def dbHaveCoin (v : CoinsViewDB) (k : OutPoint) : Bool := (v.store k).isSome

/-- Association-list lookup for the cache's OutPoint → entry mapping. -/
def entLookup : List (OutPoint × CacheEntry) → OutPoint → Option CacheEntry
  | [], _ => none
  | (k, e) :: rest, k' => if k' = k then some e else entLookup rest k'

/-- Insert or replace the entry for a key, keeping keys unique. -/
def entSet (m : List (OutPoint × CacheEntry)) (k : OutPoint) (e : CacheEntry) :
    List (OutPoint × CacheEntry) :=
  (k, e) :: m.filter (fun p => p.1 ≠ k)

/-- Erase the entry for a key. -/
def entErase (m : List (OutPoint × CacheEntry)) (k : OutPoint) :
    List (OutPoint × CacheEntry) :=
  m.filter (fun p => p.1 ≠ k)

/-- Modelled from the spec: the per-coin contribution to the cache's running
byte-size estimate ("a running byte-size estimate of cached entries",
spec §3): script bytes plus the fixed coin fields. -/
def coinUsage (c : Coin) : Nat := c.script.length + 16

/-- Modelled from the spec: `CoinsViewCache` (spec §3): the local mapping, the
parent view (carried in the state for explicit state passing), the byte-size
estimate and the pending best-block hash. -/
structure CoinsCache where
  parent : CoinsViewDB
  cacheCoins : List (OutPoint × CacheEntry)
  cachedCoinsUsage : Nat
  hashBlock : Nat

/-- A newly created cache bound to a parent view starts empty (spec §3,
"Lifecycle"). -/
def freshCache (p : CoinsViewDB) : CoinsCache :=
  { parent := p, cacheCoins := [], cachedCoinsUsage := 0, hashBlock := p.bestBlock }

/-- Modelled from the spec: `getCoin` (spec §4.2).  A local entry — even one
marked spent — is returned directly; on a local miss the parent is queried
and a hit is materialized as a `dirty = false, fresh = false` local entry;
a parent miss creates no entry. -/
def getCoin (c : CoinsCache) (k : OutPoint) : Option Coin × CoinsCache :=
  match entLookup c.cacheCoins k with
  | some e => (some e.coin, c)
  | none =>
    match c.parent.store k with
    | some coin =>
        (some coin,
         { c with cacheCoins := entSet c.cacheCoins k ⟨coin, false, false⟩,
                  cachedCoinsUsage := c.cachedCoinsUsage + coinUsage coin })
    | none => (none, c)

/-- The answer `getCoin` gives, viewed as a pure observation of the cache. -/
def viewGet (c : CoinsCache) (k : OutPoint) : Option Coin := (getCoin c k).1

/-- Modelled from the spec: `haveCoin` on the cache — existence of a
spendable coin; a locally spent entry shadows the parent and reports
absence. -/
def haveCoin (c : CoinsCache) (k : OutPoint) : Bool :=
  match viewGet c k with
  | some coin => !coin.spent
  | none => false

/-- The error kinds of the subsystem (spec §7). -/
inductive UtxoError where
  | duplicateOutput
  | missingOutput
  | backingStoreFailure
  deriving DecidableEq, Repr

/-- Modelled from the spec: `addCoin` (spec §4.2).  An existing unspent local
entry with `possible-overwrite = false` is a DuplicateOutput error, state
untouched.  Otherwise the entry is (re)written with `dirty = true`;
freshness is determined from the prior local state when one exists, and from
the parent's `haveCoin` when there was no local entry.  The stored coin is
recorded unspent.  The new coin's usage is added to the byte-size
estimate. -/
def addCoin (c : CoinsCache) (k : OutPoint) (coin : Coin) (possibleOverwrite : Bool) :
    CoinsCache × Option UtxoError :=
  match entLookup c.cacheCoins k with
  | some e =>
    if !e.coin.spent && !possibleOverwrite then
      (c, some .duplicateOutput)
    else
      ({ c with cacheCoins := entSet c.cacheCoins k ⟨{ coin with spent := false }, true, e.fresh⟩,
                cachedCoinsUsage := c.cachedCoinsUsage + coinUsage coin }, none)
  | none =>
    let fr := !dbHaveCoin c.parent k
    ({ c with cacheCoins := entSet c.cacheCoins k ⟨{ coin with spent := false }, true, fr⟩,
              cachedCoinsUsage := c.cachedCoinsUsage + coinUsage coin }, none)

/-- Modelled from the spec: `spendCoin` (spec §4.2).  The lookup materializes
from the parent if needed; absence everywhere is a MissingOutput error; a
fresh entry is erased outright; otherwise the entry's coin is marked spent
and the entry dirty. -/
def spendCoin (c : CoinsCache) (k : OutPoint) : CoinsCache × Option UtxoError :=
  match entLookup c.cacheCoins k with
  | some e =>
    if e.fresh then
      ({ c with cacheCoins := entErase c.cacheCoins k,
                cachedCoinsUsage := c.cachedCoinsUsage - coinUsage e.coin }, none)
    else
      ({ c with cacheCoins := entSet c.cacheCoins k
                  ⟨{ e.coin with spent := true }, true, e.fresh⟩ }, none)
  | none =>
    match c.parent.store k with
    | some coin =>
        ({ c with cacheCoins := entSet c.cacheCoins k
                    ⟨{ coin with spent := true }, true, false⟩,
                  cachedCoinsUsage := c.cachedCoinsUsage + coinUsage coin }, none)
    | none => (c, some .missingOutput)

/-- Modelled from the spec: one flush instruction applied to the parent's
store (spec §4.3): a spent coin is a deletion unless fresh (a fresh,
now-deleted instruction is omitted — it never existed downstream); an
unspent coin is a write, persisted without the transient spent marker. -/
def applyEntry (s : OutPoint → Option Coin) (k : OutPoint) (e : CacheEntry) :
    OutPoint → Option Coin :=
  if e.coin.spent then
    if e.fresh then s
    else fun k' => if k' = k then none else s k'
  else
    fun k' => if k' = k then some { e.coin with spent := false } else s k'

/-- Modelled from the spec: `batchWrite` of the persistent leaf (spec §4.1,
§4.3): atomic — on failure the view is unchanged; on success all
instructions are applied and the best-block hash updated. -/
def batchWrite (v : CoinsViewDB) (entries : List (OutPoint × CacheEntry)) (hb : Nat) :
    Option CoinsViewDB :=
  if v.fails then none
  else
    some { store := entries.foldl (fun s p => applyEntry s p.1 p.2) v.store,
           bestBlock := hb, fails := v.fails }

/-- The instruction set a flush submits: every local entry with
`dirty = true` (spec §4.2, "Flush"). -/
def dirtyEntries (c : CoinsCache) : List (OutPoint × CacheEntry) :=
  c.cacheCoins.filter (fun p => p.2.dirty)

/-- Modelled from the spec: `flush` (spec §4.2): submit the dirty entries and
the pending best-block hash via a single `batchWrite`; on success clear the
local mapping and reset the byte-size estimate to zero; on failure leave the
cache untouched and report the backing-store failure. -/
def flush (c : CoinsCache) : CoinsCache × Option UtxoError :=
  match batchWrite c.parent (dirtyEntries c) c.hashBlock with
  | some p' =>
      ({ parent := p', cacheCoins := [], cachedCoinsUsage := 0,
         hashBlock := c.hashBlock }, none)
  | none => (c, some .backingStoreFailure)

/-! ## Basic lemmas about the association list and the operations -/

theorem entLookup_entSet_self (m : List (OutPoint × CacheEntry)) (k : OutPoint)
    (e : CacheEntry) : entLookup (entSet m k e) k = some e := by
  simp [entSet, entLookup]

theorem entLookup_filter_ne (m : List (OutPoint × CacheEntry)) (k k' : OutPoint)
    (h : k' ≠ k) :
    entLookup (m.filter (fun p => p.1 ≠ k)) k' = entLookup m k' := by
  induction m with
  | nil => rfl
  | cons p rest ih =>
    obtain ⟨pk, pe⟩ := p
    by_cases hp : pk = k
    · rw [List.filter_cons, if_neg (by simp [hp]), ih]
      have hk : ¬ k' = pk := fun hh => h (hh.trans hp)
      simp [entLookup, hk]
    · rw [List.filter_cons, if_pos (by simp [hp])]
      by_cases hk : k' = pk
      · simp [entLookup, hk]
      · simp only [entLookup, if_neg hk]
        exact ih

theorem entLookup_entSet_ne (m : List (OutPoint × CacheEntry)) (k k' : OutPoint)
    (e : CacheEntry) (h : k' ≠ k) :
    entLookup (entSet m k e) k' = entLookup m k' := by
  unfold entSet
  simp only [entLookup]
  rw [if_neg h]
  exact entLookup_filter_ne m k k' h

theorem entLookup_none_keys (m : List (OutPoint × CacheEntry)) (k : OutPoint)
    (h : entLookup m k = none) : ∀ p ∈ m, p.1 ≠ k := by
  induction m with
  | nil => intro p hp; cases hp
  | cons q rest ih =>
    obtain ⟨qk, qe⟩ := q
    intro p hp
    by_cases hk : k = qk
    · simp [entLookup, hk] at h
    · simp only [entLookup, if_neg hk] at h
      rcases List.mem_cons.mp hp with hpe | hpm
      · rw [hpe]; intro hc; exact hk hc.symm
      · exact ih h p hpm

theorem entLookup_mem (m : List (OutPoint × CacheEntry)) (k : OutPoint)
    (e : CacheEntry) (h : entLookup m k = some e) : (k, e) ∈ m := by
  induction m with
  | nil => cases h
  | cons q rest ih =>
    obtain ⟨qk, qe⟩ := q
    by_cases hk : k = qk
    · subst hk
      simp [entLookup] at h
      subst h
      exact List.mem_cons_self _ _
    · simp only [entLookup, if_neg hk] at h
      exact List.mem_cons_of_mem _ (ih h)

/-- A fold of flush instructions none of which is keyed at `k` leaves the
store's value at `k` unchanged. -/
theorem foldl_applyEntry_not_mem (l : List (OutPoint × CacheEntry))
    (s : OutPoint → Option Coin) (k : OutPoint) (h : ∀ p ∈ l, p.1 ≠ k) :
    (l.foldl (fun s p => applyEntry s p.1 p.2) s) k = s k := by
  induction l generalizing s with
  | nil => rfl
  | cons p rest ih =>
    have hp : p.1 ≠ k := h p (List.mem_cons_self _ _)
    have hrest : ∀ q ∈ rest, q.1 ≠ k := fun q hq => h q (List.mem_cons_of_mem _ hq)
    have hk : ¬ k = p.1 := fun hh => hp hh.symm
    rw [List.foldl_cons, ih _ hrest]
    unfold applyEntry
    by_cases hs : p.2.coin.spent
    · by_cases hf : p.2.fresh <;> simp [hs, hf, hk]
    · simp [hs, hk]

/-! ## C1: flush atomicity under failure -/

/-- C1: for every cache state and every flush in which the parent's
`batchWrite` fails, the cache's local entry mapping and its byte-size
estimate after the failed flush are identical to their values immediately
before the flush, and the failure is reported as a backing-store error. -/
theorem flush_failure_preserves_cache (c : CoinsCache)
    (h : batchWrite c.parent (dirtyEntries c) c.hashBlock = none) :
    (flush c).1.cacheCoins = c.cacheCoins ∧
    (flush c).1.cachedCoinsUsage = c.cachedCoinsUsage ∧
    (flush c).2 = some .backingStoreFailure := by
  simp [flush, h]

/-- Concrete witness for C1: a cache with one dirty entry over a failing
parent keeps its mapping and estimate across the failed flush. -/
theorem flush_failure_preserves_cache_witness :
    (batchWrite
        (CoinsCache.mk ⟨fun _ => none, 0, true⟩
          [(⟨1, 0⟩, ⟨⟨5000, [1, 2], 100, false, false⟩, true, true⟩)] 18 7).parent
        (dirtyEntries
          (CoinsCache.mk ⟨fun _ => none, 0, true⟩
            [(⟨1, 0⟩, ⟨⟨5000, [1, 2], 100, false, false⟩, true, true⟩)] 18 7))
        (CoinsCache.mk ⟨fun _ => none, 0, true⟩
          [(⟨1, 0⟩, ⟨⟨5000, [1, 2], 100, false, false⟩, true, true⟩)] 18 7).hashBlock
      = none) ∧
    ((flush (CoinsCache.mk ⟨fun _ => none, 0, true⟩
          [(⟨1, 0⟩, ⟨⟨5000, [1, 2], 100, false, false⟩, true, true⟩)] 18 7)).1.cacheCoins
        = [(⟨1, 0⟩, ⟨⟨5000, [1, 2], 100, false, false⟩, true, true⟩)] ∧
      (flush (CoinsCache.mk ⟨fun _ => none, 0, true⟩
          [(⟨1, 0⟩, ⟨⟨5000, [1, 2], 100, false, false⟩, true, true⟩)] 18 7)).1.cachedCoinsUsage
        = 18) := by
  constructor
  · rfl
  · have h := flush_failure_preserves_cache
      (CoinsCache.mk ⟨fun _ => none, 0, true⟩
        [(⟨1, 0⟩, ⟨⟨5000, [1, 2], 100, false, false⟩, true, true⟩)] 18 7) rfl
    exact ⟨h.1, h.2.1⟩

/-! ## C2: local entries shadow the parent -/

/-- C2: whenever an OutPoint has a local entry (even one whose coin is marked
spent), `getCoin` returns exactly the local state, leaves the cache
untouched, and its answer does not depend on the parent view at all. -/
theorem getCoin_shadows_local (c : CoinsCache) (k : OutPoint) (e : CacheEntry)
    (h : entLookup c.cacheCoins k = some e) :
    (getCoin c k).1 = some e.coin ∧ (getCoin c k).2 = c ∧
    ∀ p : CoinsViewDB, (getCoin { c with parent := p } k).1 = some e.coin := by
  refine ⟨by simp [getCoin, h], by simp [getCoin, h], ?_⟩
  intro p
  simp [getCoin, h]

/-- Concrete witness for C2: a locally spent coin is returned as the local
(spent) state even though the parent holds a live coin at the same key. -/
theorem getCoin_shadows_local_witness :
    (entLookup
        (CoinsCache.mk ⟨fun _ => some ⟨7777, [], 5, false, false⟩, 0, false⟩
          [(⟨2, 1⟩, ⟨⟨123, [9], 8, false, true⟩, true, false⟩)] 10 0).cacheCoins ⟨2, 1⟩
      = some ⟨⟨123, [9], 8, false, true⟩, true, false⟩) ∧
    (getCoin
        (CoinsCache.mk ⟨fun _ => some ⟨7777, [], 5, false, false⟩, 0, false⟩
          [(⟨2, 1⟩, ⟨⟨123, [9], 8, false, true⟩, true, false⟩)] 10 0) ⟨2, 1⟩).1
      = some ⟨123, [9], 8, false, true⟩ := by
  constructor
  · rfl
  · exact (getCoin_shadows_local
      (CoinsCache.mk ⟨fun _ => some ⟨7777, [], 5, false, false⟩, 0, false⟩
        [(⟨2, 1⟩, ⟨⟨123, [9], 8, false, true⟩, true, false⟩)] 10 0) ⟨2, 1⟩
      ⟨⟨123, [9], 8, false, true⟩, true, false⟩ rfl).1

/-! ## C5: duplicate rejection -/

/-- C5: adding a coin at an OutPoint that already holds an unspent local
entry, with the possible-overwrite flag false, fails with DuplicateOutput
and returns the cache completely unchanged. -/
theorem addCoin_duplicate_rejected (c : CoinsCache) (k : OutPoint)
    (coin : Coin) (e : CacheEntry) (h : entLookup c.cacheCoins k = some e)
    (hu : e.coin.spent = false) :
    addCoin c k coin false = (c, some .duplicateOutput) := by
  simp [addCoin, h, hu]

/-- Concrete witness for C5. -/
theorem addCoin_duplicate_rejected_witness :
    (entLookup
        (CoinsCache.mk ⟨fun _ => none, 0, false⟩
          [(⟨3, 0⟩, ⟨⟨50, [4], 2, false, false⟩, true, true⟩)] 17 0).cacheCoins ⟨3, 0⟩
      = some ⟨⟨50, [4], 2, false, false⟩, true, true⟩) ∧
    addCoin
        (CoinsCache.mk ⟨fun _ => none, 0, false⟩
          [(⟨3, 0⟩, ⟨⟨50, [4], 2, false, false⟩, true, true⟩)] 17 0) ⟨3, 0⟩
        ⟨60, [5], 3, false, false⟩ false
      = (CoinsCache.mk ⟨fun _ => none, 0, false⟩
          [(⟨3, 0⟩, ⟨⟨50, [4], 2, false, false⟩, true, true⟩)] 17 0,
         some .duplicateOutput) := by
  exact ⟨rfl, addCoin_duplicate_rejected _ ⟨3, 0⟩ ⟨60, [5], 3, false, false⟩
    ⟨⟨50, [4], 2, false, false⟩, true, true⟩ rfl rfl⟩

/-! ## C6: spending an unknown output -/

/-- C6: spending an OutPoint with no coin known locally or in the parent
chain reports a MissingOutput error and leaves the cache unchanged. -/
theorem spendCoin_missing_reports_error (c : CoinsCache) (k : OutPoint)
    (h1 : entLookup c.cacheCoins k = none) (h2 : c.parent.store k = none) :
    spendCoin c k = (c, some .missingOutput) := by
  simp [spendCoin, h1, h2]

/-- Concrete witness for C6. -/
theorem spendCoin_missing_reports_error_witness :
    (entLookup (freshCache ⟨fun _ => none, 0, false⟩).cacheCoins ⟨9, 9⟩ = none) ∧
    spendCoin (freshCache ⟨fun _ => none, 0, false⟩) ⟨9, 9⟩
      = (freshCache ⟨fun _ => none, 0, false⟩, some .missingOutput) := by
  exact ⟨rfl, spendCoin_missing_reports_error _ ⟨9, 9⟩ rfl rfl⟩

/-! ## C3 / C4 supporting lemmas -/

theorem mem_filter_key_ne (m : List (OutPoint × CacheEntry)) (k : OutPoint) :
    ∀ p ∈ m.filter (fun q => q.1 ≠ k), p.1 ≠ k := by
  intro p hp
  simpa using (List.mem_filter.mp hp).2

theorem dirtyEntries_subset (c : CoinsCache) :
    ∀ p ∈ dirtyEntries c, p ∈ c.cacheCoins := by
  intro p hp
  exact List.mem_of_mem_filter hp

/-- A flush whose instruction set holds no instruction for `k` leaves the
parent's stored value at `k` unchanged, whether the batch write succeeds or
fails. -/
theorem flush_parent_store_unchanged (c : CoinsCache) (k : OutPoint)
    (h : ∀ p ∈ dirtyEntries c, p.1 ≠ k) :
    (flush c).1.parent.store k = c.parent.store k := by
  unfold flush batchWrite
  by_cases hf : c.parent.fails
  · simp [hf]
  · simp only [hf, Bool.false_eq_true, if_false]
    exact foldl_applyEntry_not_mem _ _ _ h

/-! ## C3: fresh-spend elision -/

/-- C3: for an OutPoint absent from the parent (and with no local entry, so
that the add can proceed), addCoin then spendCoin then flush succeeds at each
step up to the flush, produces no write or delete instruction to the parent
for that key, and leaves the parent's state for that key unchanged. -/
theorem fresh_spend_elision (c : CoinsCache) (k : OutPoint) (coin : Coin)
    (h1 : entLookup c.cacheCoins k = none) (h2 : c.parent.store k = none) :
    (addCoin c k coin false).2 = none ∧
    (spendCoin (addCoin c k coin false).1 k).2 = none ∧
    (∀ p ∈ dirtyEntries (spendCoin (addCoin c k coin false).1 k).1, p.1 ≠ k) ∧
    (flush (spendCoin (addCoin c k coin false).1 k).1).1.parent.store k
      = c.parent.store k := by
  have hdb : dbHaveCoin c.parent k = false := by simp [dbHaveCoin, h2]
  have hadd : addCoin c k coin false
      = ({ c with
            cacheCoins := entSet c.cacheCoins k ⟨{ coin with spent := false }, true, true⟩,
            cachedCoinsUsage := c.cachedCoinsUsage + coinUsage coin }, none) := by
    simp [addCoin, h1, hdb]
  have hspend : spendCoin (addCoin c k coin false).1 k
      = ({ (addCoin c k coin false).1 with
            cacheCoins := entErase (addCoin c k coin false).1.cacheCoins k,
            cachedCoinsUsage := (addCoin c k coin false).1.cachedCoinsUsage
              - coinUsage { coin with spent := false } }, none) := by
    rw [hadd]
    simp [spendCoin, entLookup_entSet_self]
  have hkeys : ∀ p ∈ dirtyEntries (spendCoin (addCoin c k coin false).1 k).1, p.1 ≠ k := by
    intro p hp
    have hp2 := dirtyEntries_subset _ p hp
    rw [hspend] at hp2
    exact mem_filter_key_ne _ k p hp2
  refine ⟨by rw [hadd], by rw [hspend], hkeys, ?_⟩
  have hpar : (spendCoin (addCoin c k coin false).1 k).1.parent = c.parent := by
    rw [hspend, hadd]
  rw [flush_parent_store_unchanged _ k hkeys, hpar]

/-- Concrete witness for C3: an empty cache over an empty parent; add then
spend then flush at OutPoint (1,0) never touches the parent's (absent) state
at that key. -/
theorem fresh_spend_elision_witness :
    (entLookup (freshCache ⟨fun _ => none, 0, false⟩).cacheCoins ⟨1, 0⟩ = none ∧
     (freshCache ⟨fun _ => none, 0, false⟩).parent.store ⟨1, 0⟩ = none) ∧
    ((addCoin (freshCache ⟨fun _ => none, 0, false⟩) ⟨1, 0⟩
        ⟨5000, [1], 100, false, false⟩ false).2 = none ∧
     (spendCoin (addCoin (freshCache ⟨fun _ => none, 0, false⟩) ⟨1, 0⟩
        ⟨5000, [1], 100, false, false⟩ false).1 ⟨1, 0⟩).2 = none ∧
     (∀ p ∈ dirtyEntries (spendCoin (addCoin (freshCache ⟨fun _ => none, 0, false⟩) ⟨1, 0⟩
        ⟨5000, [1], 100, false, false⟩ false).1 ⟨1, 0⟩).1, p.1 ≠ (⟨1, 0⟩ : OutPoint)) ∧
     (flush (spendCoin (addCoin (freshCache ⟨fun _ => none, 0, false⟩) ⟨1, 0⟩
        ⟨5000, [1], 100, false, false⟩ false).1 ⟨1, 0⟩).1).1.parent.store ⟨1, 0⟩
       = (freshCache ⟨fun _ => none, 0, false⟩).parent.store ⟨1, 0⟩) := by
  exact ⟨⟨rfl, rfl⟩,
    fresh_spend_elision (freshCache ⟨fun _ => none, 0, false⟩) ⟨1, 0⟩
      ⟨5000, [1], 100, false, false⟩ rfl rfl⟩

/-! ## C4: non-fresh-spend tombstone -/

/-- C4: for an OutPoint whose coin exists in the parent and which has no
local entry yet, getCoin (which materializes a non-fresh entry) then
spendCoin then a successful flush makes the parent's haveCoin false at that
key. -/
theorem nonfresh_spend_tombstone (c : CoinsCache) (k : OutPoint) (coin : Coin)
    (h1 : entLookup c.cacheCoins k = none) (h2 : c.parent.store k = some coin)
    (hfl : c.parent.fails = false) :
    (getCoin c k).1 = some coin ∧
    (spendCoin (getCoin c k).2 k).2 = none ∧
    (flush (spendCoin (getCoin c k).2 k).1).2 = none ∧
    dbHaveCoin (flush (spendCoin (getCoin c k).2 k).1).1.parent k = false := by
  have hget : getCoin c k
      = (some coin,
         { c with cacheCoins := entSet c.cacheCoins k ⟨coin, false, false⟩,
                  cachedCoinsUsage := c.cachedCoinsUsage + coinUsage coin }) := by
    simp [getCoin, h1, h2]
  have hspend : spendCoin (getCoin c k).2 k
      = ({ (getCoin c k).2 with
            cacheCoins := entSet (getCoin c k).2.cacheCoins k
              ⟨{ coin with spent := true }, true, false⟩ }, none) := by
    rw [hget]
    simp [spendCoin, entLookup_entSet_self]
  have hmap : (spendCoin (getCoin c k).2 k).1.cacheCoins
      = (k, ⟨{ coin with spent := true }, true, false⟩)
        :: ((entSet c.cacheCoins k ⟨coin, false, false⟩).filter (fun p => p.1 ≠ k)) := by
    rw [hspend, hget]
    rfl
  have hpar : (spendCoin (getCoin c k).2 k).1.parent = c.parent := by
    rw [hspend, hget]
  refine ⟨by rw [hget], by rw [hspend], ?_, ?_⟩
  · -- the batch write succeeds
    unfold flush
    rw [hpar]
    simp [batchWrite, hfl]
  · -- after the flush the key is deleted from the parent store
    have hdirty : dirtyEntries (spendCoin (getCoin c k).2 k).1
        = (k, ⟨{ coin with spent := true }, true, false⟩)
          :: ((entSet c.cacheCoins k ⟨coin, false, false⟩).filter
                (fun p => p.1 ≠ k)).filter (fun p => p.2.dirty) := by
      rw [dirtyEntries, hmap]
      rfl
    have htail : ∀ p ∈ ((entSet c.cacheCoins k ⟨coin, false, false⟩).filter
        (fun p => p.1 ≠ k)).filter (fun p => p.2.dirty), p.1 ≠ k := by
      intro p hp
      exact mem_filter_key_ne _ k p (List.mem_of_mem_filter hp)
    unfold flush
    rw [hpar]
    simp only [batchWrite, hfl, Bool.false_eq_true, if_false]
    rw [hdirty]
    simp only [dbHaveCoin, List.foldl_cons]
    rw [foldl_applyEntry_not_mem _ _ _ htail]
    simp [applyEntry]

/-- Concrete witness for C4: a cache over a parent holding a coin at (4,2);
read, spend, flush; the parent no longer has the coin. -/
theorem nonfresh_spend_tombstone_witness :
    (entLookup (freshCache ⟨fun q => if q = ⟨4, 2⟩ then some ⟨900, [7], 3, false, false⟩ else none,
        0, false⟩).cacheCoins ⟨4, 2⟩ = none ∧
     (freshCache ⟨fun q => if q = ⟨4, 2⟩ then some ⟨900, [7], 3, false, false⟩ else none,
        0, false⟩).parent.store ⟨4, 2⟩ = some ⟨900, [7], 3, false, false⟩ ∧
     (freshCache ⟨fun q => if q = ⟨4, 2⟩ then some ⟨900, [7], 3, false, false⟩ else none,
        0, false⟩).parent.fails = false) ∧
    dbHaveCoin
      (flush (spendCoin
        (getCoin (freshCache ⟨fun q => if q = ⟨4, 2⟩ then some ⟨900, [7], 3, false, false⟩ else none,
          0, false⟩) ⟨4, 2⟩).2 ⟨4, 2⟩).1).1.parent ⟨4, 2⟩ = false := by
  refine ⟨⟨rfl, by decide, rfl⟩, ?_⟩
  exact (nonfresh_spend_tombstone
    (freshCache ⟨fun q => if q = ⟨4, 2⟩ then some ⟨900, [7], 3, false, false⟩ else none, 0, false⟩)
    ⟨4, 2⟩ ⟨900, [7], 3, false, false⟩ rfl (by decide) rfl).2.2.2

/-! ## C7: round-trip through a flush — definitions -/

/-- A mutation applied to the topmost cache (spec §2: "Mutations (spend, add)
happen only in the topmost cache"). -/
inductive CacheOp where
  | add (k : OutPoint) (coin : Coin) (possibleOverwrite : Bool)
  | spend (k : OutPoint)

/-- Apply one operation, keeping the (possibly unchanged, on error) state. -/
def applyOp (c : CoinsCache) : CacheOp → CoinsCache
  | .add k coin po => (addCoin c k coin po).1
  | .spend k => (spendCoin c k).1

/-- Apply a finite sequence of addCoin/spendCoin operations. -/
def applyOps (c : CoinsCache) (ops : List CacheOp) : CoinsCache :=
  ops.foldl applyOp c

/-- The persistent leaf never stores a coin marked spent (spec §3: "a Coin is
never persisted directly as spent"). -/
def dbWellFormed (v : CoinsViewDB) : Prop :=
  ∀ k coin, v.store k = some coin → coin.spent = false

/-- The spec's meaning of the bookkeeping flags (spec §3): a fresh entry is
one the parent has no record of; a non-dirty entry agrees with the parent. -/
def goodEntry (v : CoinsViewDB) (k : OutPoint) (e : CacheEntry) : Prop :=
  (e.fresh = true → v.store k = none) ∧
  (e.dirty = false → v.store k = some e.coin)

/-- The cache's mapping has unique keys (spec §3: "unique keys"). -/
def distinctKeys (m : List (OutPoint × CacheEntry)) : Prop :=
  m.Pairwise (fun p q => p.1 ≠ q.1)

/-- Cache well-formedness: unique keys, a well-formed parent store, and every
entry's flags meaning what the spec says they mean. -/
def cacheWF (c : CoinsCache) : Prop :=
  distinctKeys c.cacheCoins ∧ dbWellFormed c.parent ∧
  ∀ k e, entLookup c.cacheCoins k = some e → goodEntry c.parent k e

/-- Collapse a spent answer to absence: the observable "is there a spendable
coin and which" content of a getCoin answer. -/
def spendable : Option Coin → Option Coin
  | some coin => if coin.spent then none else some coin
  | none => none

/-! ## C7 supporting lemmas -/

theorem entLookup_eq_none_of_keys (m : List (OutPoint × CacheEntry)) (k : OutPoint)
    (h : ∀ p ∈ m, p.1 ≠ k) : entLookup m k = none := by
  induction m with
  | nil => rfl
  | cons q rest ih =>
    obtain ⟨qk, qe⟩ := q
    have hq : qk ≠ k := h (qk, qe) (List.mem_cons_self _ _)
    have hk : ¬ k = qk := fun hh => hq hh.symm
    simp only [entLookup, if_neg hk]
    exact ih (fun p hp => h p (List.mem_cons_of_mem _ hp))

theorem entLookup_of_mem_distinct (m : List (OutPoint × CacheEntry)) (k : OutPoint)
    (e : CacheEntry) (hd : distinctKeys m) (hm : (k, e) ∈ m) :
    entLookup m k = some e := by
  induction m with
  | nil => cases hm
  | cons q rest ih =>
    obtain ⟨qk, qe⟩ := q
    rw [distinctKeys, List.pairwise_cons] at hd
    rcases List.mem_cons.mp hm with hh | ht
    · have h1 : qk = k := (congrArg Prod.fst hh).symm
      have h2 : qe = e := (congrArg Prod.snd hh).symm
      subst h1; subst h2
      simp [entLookup]
    · have hq : qk ≠ k := by
        have := hd.1 (k, e) ht
        simpa using this
      have hk : ¬ k = qk := fun hh => hq hh.symm
      simp only [entLookup, if_neg hk]
      exact ih hd.2 ht

theorem distinctKeys_filter (m : List (OutPoint × CacheEntry))
    (f : OutPoint × CacheEntry → Bool) (h : distinctKeys m) :
    distinctKeys (m.filter f) :=
  List.Pairwise.filter f h

theorem distinctKeys_entSet (m : List (OutPoint × CacheEntry)) (k : OutPoint)
    (e : CacheEntry) (h : distinctKeys m) : distinctKeys (entSet m k e) := by
  rw [entSet, distinctKeys, List.pairwise_cons]
  constructor
  · intro p hp
    have := mem_filter_key_ne m k p hp
    simpa using fun hh => this hh.symm
  · exact distinctKeys_filter m _ h

theorem coin_set_spent_false (c : Coin) (h : c.spent = false) :
    { c with spent := false } = c := by
  cases c
  simp_all

theorem viewGet_freshCache (P : CoinsViewDB) (k : OutPoint) :
    viewGet (freshCache P) k = P.store k := by
  unfold viewGet getCoin freshCache
  cases h : P.store k <;> simp [entLookup, h]

theorem viewGet_of_lookup_none (c : CoinsCache) (k : OutPoint)
    (h : entLookup c.cacheCoins k = none) : viewGet c k = c.parent.store k := by
  unfold viewGet getCoin
  rw [h]
  cases hs : c.parent.store k <;> simp

theorem viewGet_of_lookup_some (c : CoinsCache) (k : OutPoint) (e : CacheEntry)
    (h : entLookup c.cacheCoins k = some e) : viewGet c k = some e.coin := by
  unfold viewGet getCoin
  rw [h]

/-- The value a fold of flush instructions leaves at key `k`, when the
instruction list has unique keys and contains the instruction `(k, e)`. -/
theorem foldl_applyEntry_mem (k : OutPoint) (e : CacheEntry) :
    ∀ (l : List (OutPoint × CacheEntry)) (s : OutPoint → Option Coin),
    distinctKeys l → (k, e) ∈ l →
    (l.foldl (fun s p => applyEntry s p.1 p.2) s) k
      = if e.coin.spent then (if e.fresh then s k else none)
        else some { e.coin with spent := false } := by
  intro l
  induction l with
  | nil => intro s _ hm; cases hm
  | cons q rest ih =>
    intro s hd hm
    obtain ⟨qk, qe⟩ := q
    rw [distinctKeys, List.pairwise_cons] at hd
    rcases List.mem_cons.mp hm with hh | ht
    · have h1 : qk = k := (congrArg Prod.fst hh).symm
      have h2 : qe = e := (congrArg Prod.snd hh).symm
      subst h1; subst h2
      rw [List.foldl_cons]
      have hrest : ∀ p ∈ rest, p.1 ≠ qk := by
        intro p hp hpk
        exact (hd.1 p hp) hpk.symm
      rw [foldl_applyEntry_not_mem _ _ _ hrest]
      unfold applyEntry
      by_cases hs : qe.coin.spent <;> by_cases hf : qe.fresh <;> simp [hs, hf]
    · have hq : qk ≠ k := by
        have := hd.1 (k, e) ht
        simpa using this
      rw [List.foldl_cons, ih _ hd.2 ht]
      have happ : (applyEntry s qk qe) k = s k := by
        unfold applyEntry
        have hk : ¬ k = qk := fun hh => hq hh.symm
        by_cases hs : qe.coin.spent
        · by_cases hf : qe.fresh <;> simp [hs, hf, hk]
        · simp [hs, hk]
      rw [happ]

theorem addCoin_parent (c : CoinsCache) (k : OutPoint) (coin : Coin) (po : Bool) :
    (addCoin c k coin po).1.parent = c.parent := by
  unfold addCoin
  split
  · split <;> rfl
  · rfl

theorem spendCoin_parent (c : CoinsCache) (k : OutPoint) :
    (spendCoin c k).1.parent = c.parent := by
  unfold spendCoin
  split
  · split <;> rfl
  · split <;> rfl

theorem applyOp_parent (c : CoinsCache) (o : CacheOp) :
    (applyOp c o).parent = c.parent := by
  cases o with
  | add k coin po => exact addCoin_parent c k coin po
  | spend k => exact spendCoin_parent c k

theorem applyOps_parent (ops : List CacheOp) :
    ∀ c : CoinsCache, (applyOps c ops).parent = c.parent := by
  induction ops with
  | nil => intro c; rfl
  | cons o rest ih =>
    intro c
    rw [applyOps, List.foldl_cons]
    exact (ih (applyOp c o)).trans (applyOp_parent c o)

theorem cacheWF_addCoin (c : CoinsCache) (k : OutPoint) (coin : Coin) (po : Bool)
    (h : cacheWF c) : cacheWF (addCoin c k coin po).1 := by
  obtain ⟨hd, hwf, hcons⟩ := h
  cases hle : entLookup c.cacheCoins k with
  | some e =>
    by_cases hcond : (!e.coin.spent && !po) = true
    · have hsame : (addCoin c k coin po).1 = c := by simp [addCoin, hle, hcond]
      rw [hsame]; exact ⟨hd, hwf, hcons⟩
    · have hmap : (addCoin c k coin po).1.cacheCoins
          = entSet c.cacheCoins k ⟨{ coin with spent := false }, true, e.fresh⟩ := by
        simp [addCoin, hle, hcond]
      refine ⟨?_, ?_, ?_⟩
      · rw [hmap]; exact distinctKeys_entSet _ _ _ hd
      · rw [addCoin_parent]; exact hwf
      · intro k' e' hle'
        rw [addCoin_parent]
        rw [hmap] at hle'
        by_cases hk : k' = k
        · subst hk
          rw [entLookup_entSet_self] at hle'
          have he' : e' = ⟨{ coin with spent := false }, true, e.fresh⟩ := by
            injection hle' with hh; exact hh.symm
          subst he'
          constructor
          · intro hf
            exact (hcons k' e hle).1 hf
          · intro hdf; simp at hdf
        · rw [entLookup_entSet_ne _ _ _ _ hk] at hle'
          exact hcons k' e' hle'
  | none =>
    have hmap : (addCoin c k coin po).1.cacheCoins
        = entSet c.cacheCoins k
            ⟨{ coin with spent := false }, true, !dbHaveCoin c.parent k⟩ := by
      simp [addCoin, hle]
    refine ⟨?_, ?_, ?_⟩
    · rw [hmap]; exact distinctKeys_entSet _ _ _ hd
    · rw [addCoin_parent]; exact hwf
    · intro k' e' hle'
      rw [addCoin_parent]
      rw [hmap] at hle'
      by_cases hk : k' = k
      · subst hk
        rw [entLookup_entSet_self] at hle'
        have he' : e' = ⟨{ coin with spent := false }, true, !dbHaveCoin c.parent k'⟩ := by
          injection hle' with hh; exact hh.symm
        subst he'
        constructor
        · intro hf
          have hfb : dbHaveCoin c.parent k' = false := by simpa using hf
          cases hsk : c.parent.store k' with
          | none => rfl
          | some w => simp [dbHaveCoin, hsk] at hfb
        · intro hdf; simp at hdf
      · rw [entLookup_entSet_ne _ _ _ _ hk] at hle'
        exact hcons k' e' hle'

theorem cacheWF_spendCoin (c : CoinsCache) (k : OutPoint)
    (h : cacheWF c) : cacheWF (spendCoin c k).1 := by
  obtain ⟨hd, hwf, hcons⟩ := h
  cases hle : entLookup c.cacheCoins k with
  | some e =>
    by_cases hf : e.fresh = true
    · have hmap : (spendCoin c k).1.cacheCoins = entErase c.cacheCoins k := by
        simp [spendCoin, hle, hf]
      refine ⟨?_, ?_, ?_⟩
      · rw [hmap]; exact distinctKeys_filter _ _ hd
      · rw [spendCoin_parent]; exact hwf
      · intro k' e' hle'
        rw [spendCoin_parent]
        rw [hmap] at hle'
        by_cases hk : k' = k
        · subst hk
          have hnone : entLookup (entErase c.cacheCoins k') k' = none := by
            apply entLookup_eq_none_of_keys
            intro p hp
            rw [entErase] at hp
            exact mem_filter_key_ne _ _ p hp
          rw [hnone] at hle'
          cases hle'
        · rw [entErase, entLookup_filter_ne _ _ _ hk] at hle'
          exact hcons k' e' hle'
    · have hfb : e.fresh = false := by simpa using hf
      have hmap : (spendCoin c k).1.cacheCoins
          = entSet c.cacheCoins k ⟨{ e.coin with spent := true }, true, e.fresh⟩ := by
        simp [spendCoin, hle, hf]
      refine ⟨?_, ?_, ?_⟩
      · rw [hmap]; exact distinctKeys_entSet _ _ _ hd
      · rw [spendCoin_parent]; exact hwf
      · intro k' e' hle'
        rw [spendCoin_parent]
        rw [hmap] at hle'
        by_cases hk : k' = k
        · subst hk
          rw [entLookup_entSet_self] at hle'
          have he' : e' = ⟨{ e.coin with spent := true }, true, e.fresh⟩ := by
            injection hle' with hh; exact hh.symm
          subst he'
          constructor
          · intro hff; rw [hfb] at hff; cases hff
          · intro hdf; simp at hdf
        · rw [entLookup_entSet_ne _ _ _ _ hk] at hle'
          exact hcons k' e' hle'
  | none =>
    cases hsk : c.parent.store k with
    | some coin =>
      have hmap : (spendCoin c k).1.cacheCoins
          = entSet c.cacheCoins k ⟨{ coin with spent := true }, true, false⟩ := by
        simp [spendCoin, hle, hsk]
      refine ⟨?_, ?_, ?_⟩
      · rw [hmap]; exact distinctKeys_entSet _ _ _ hd
      · rw [spendCoin_parent]; exact hwf
      · intro k' e' hle'
        rw [spendCoin_parent]
        rw [hmap] at hle'
        by_cases hk : k' = k
        · subst hk
          rw [entLookup_entSet_self] at hle'
          have he' : e' = ⟨{ coin with spent := true }, true, false⟩ := by
            injection hle' with hh; exact hh.symm
          subst he'
          constructor
          · intro hff; cases hff
          · intro hdf; simp at hdf
        · rw [entLookup_entSet_ne _ _ _ _ hk] at hle'
          exact hcons k' e' hle'
    | none =>
      have hsame : (spendCoin c k).1 = c := by simp [spendCoin, hle, hsk]
      rw [hsame]; exact ⟨hd, hwf, hcons⟩

theorem cacheWF_applyOp (c : CoinsCache) (o : CacheOp) (h : cacheWF c) :
    cacheWF (applyOp c o) := by
  cases o with
  | add k coin po => exact cacheWF_addCoin c k coin po h
  | spend k => exact cacheWF_spendCoin c k h

theorem cacheWF_applyOps (ops : List CacheOp) :
    ∀ c : CoinsCache, cacheWF c → cacheWF (applyOps c ops) := by
  induction ops with
  | nil => intro c h; exact h
  | cons o rest ih =>
    intro c h
    rw [applyOps, List.foldl_cons]
    exact ih (applyOp c o) (cacheWF_applyOp c o h)

theorem flush_store_eq (c : CoinsCache) (hfl : c.parent.fails = false) :
    (flush c).1.parent.store
      = (dirtyEntries c).foldl (fun s p => applyEntry s p.1 p.2) c.parent.store := by
  unfold flush batchWrite
  simp [hfl]

/-- After a successful flush of a well-formed cache, a fresh cache over the
updated parent gives the same haveCoin answer at every key, and the same
getCoin answer up to identifying a spent report with absence. -/
theorem flush_roundtrip_answers (c1 : CoinsCache)
    (hwfc : cacheWF c1) (hfl : c1.parent.fails = false) (k : OutPoint) :
    haveCoin (freshCache (flush c1).1.parent) k = haveCoin c1 k ∧
    spendable (viewGet (freshCache (flush c1).1.parent) k)
      = spendable (viewGet c1 k) := by
  obtain ⟨hd, hwf, hcons⟩ := hwfc
  have hnew0 : viewGet (freshCache (flush c1).1.parent) k
      = (dirtyEntries c1).foldl (fun s p => applyEntry s p.1 p.2) c1.parent.store k := by
    rw [viewGet_freshCache]
    exact congrFun (flush_store_eq c1 hfl) k
  have hHaveNew : haveCoin (freshCache (flush c1).1.parent) k
      = (match viewGet (freshCache (flush c1).1.parent) k with
         | some coin => !coin.spent
         | none => false) := rfl
  have hHaveOld : haveCoin c1 k
      = (match viewGet c1 k with
         | some coin => !coin.spent
         | none => false) := rfl
  cases hle : entLookup c1.cacheCoins k with
  | none =>
    have hnk : ∀ p ∈ dirtyEntries c1, p.1 ≠ k := fun p hp =>
      entLookup_none_keys _ _ hle p (dirtyEntries_subset _ p hp)
    have heq : viewGet (freshCache (flush c1).1.parent) k = viewGet c1 k := by
      rw [hnew0, foldl_applyEntry_not_mem _ _ _ hnk, viewGet_of_lookup_none c1 k hle]
    refine ⟨?_, ?_⟩
    · rw [hHaveNew, hHaveOld, heq]
    · rw [heq]
  | some e =>
    have hB : viewGet c1 k = some e.coin := viewGet_of_lookup_some c1 k e hle
    by_cases hdy : e.dirty = true
    · have hmem : (k, e) ∈ dirtyEntries c1 :=
        List.mem_filter.mpr ⟨entLookup_mem _ _ _ hle, by simp [hdy]⟩
      have hdd : distinctKeys (dirtyEntries c1) := distinctKeys_filter _ _ hd
      have hA : viewGet (freshCache (flush c1).1.parent) k
          = (if e.coin.spent then (if e.fresh then c1.parent.store k else none)
             else some { e.coin with spent := false }) := by
        rw [hnew0]
        exact foldl_applyEntry_mem k e _ _ hdd hmem
      by_cases hs : e.coin.spent = true
      · have hAnone : viewGet (freshCache (flush c1).1.parent) k = none := by
          rw [hA, if_pos hs]
          by_cases hf : e.fresh = true
          · rw [if_pos hf]
            exact (hcons k e hle).1 hf
          · rw [if_neg hf]
        refine ⟨?_, ?_⟩
        · rw [hHaveNew, hHaveOld, hAnone, hB]
          simp [hs]
        · rw [hAnone, hB]
          simp [spendable, hs]
      · have hsf : e.coin.spent = false := by simpa using hs
        have hAv : viewGet (freshCache (flush c1).1.parent) k = some e.coin := by
          rw [hA, if_neg hs, coin_set_spent_false _ hsf]
        refine ⟨?_, ?_⟩
        · rw [hHaveNew, hHaveOld, hAv, hB]
        · rw [hAv, hB]
    · have hdf : e.dirty = false := by simpa using hdy
      have hsk : c1.parent.store k = some e.coin := (hcons k e hle).2 hdf
      have hnk : ∀ p ∈ dirtyEntries c1, p.1 ≠ k := by
        intro p hp hpk
        obtain ⟨pk, pe⟩ := p
        simp only at hpk
        subst hpk
        have hpd : pe.dirty = true := by
          simpa using (List.mem_filter.mp hp).2
        have hpm : (pk, pe) ∈ c1.cacheCoins := dirtyEntries_subset _ _ hp
        have hlk : entLookup c1.cacheCoins pk = some pe :=
          entLookup_of_mem_distinct _ _ _ hd hpm
        rw [hle] at hlk
        have hpe : pe = e := by injection hlk with hh; exact hh.symm
        rw [hpe, hdf] at hpd
        cases hpd
      have hAv : viewGet (freshCache (flush c1).1.parent) k = some e.coin := by
        rw [hnew0, foldl_applyEntry_not_mem _ _ _ hnk]
        exact hsk
      refine ⟨?_, ?_⟩
      · rw [hHaveNew, hHaveOld, hAv, hB]
      · rw [hAv, hB]

/-- C7 (amended): for any finite sequence of addCoin/spendCoin operations
applied to a well-formed cache, followed by a successful flush, a newly
created empty cache over the updated parent answers haveCoin identically to
the pre-flush cache at every OutPoint, and answers getCoin identically up to
the identification of a locally spent report with absence (where the
pre-flush cache reports a coin marked spent, the new cache reports
absent). -/
theorem roundTrip_after_flush (c0 : CoinsCache) (ops : List CacheOp) (k : OutPoint)
    (h0 : cacheWF c0) (hfl : c0.parent.fails = false) :
    haveCoin (freshCache (flush (applyOps c0 ops)).1.parent) k
      = haveCoin (applyOps c0 ops) k ∧
    spendable (viewGet (freshCache (flush (applyOps c0 ops)).1.parent) k)
      = spendable (viewGet (applyOps c0 ops) k) := by
  have h1 := cacheWF_applyOps ops c0 h0
  have hp := applyOps_parent ops c0
  exact flush_roundtrip_answers _ h1 (by rw [hp]; exact hfl) k

/-- C7 counterexample to the claim as stated: spend a parent-known coin and
flush.  The pre-flush cache's getCoin reports the coin marked spent, while a
fresh cache over the updated parent reports absence — the getCoin answers at
the touched OutPoint are not identical (haveCoin still agrees). -/
theorem roundTrip_getCoin_counterexample :
    viewGet (applyOps (freshCache
        ⟨fun q => if q = ⟨1, 0⟩ then some ⟨5000, [], 10, false, false⟩ else none, 0, false⟩)
        [.spend ⟨1, 0⟩]) ⟨1, 0⟩
      = some ⟨5000, [], 10, false, true⟩ ∧
    viewGet (freshCache (flush (applyOps (freshCache
        ⟨fun q => if q = ⟨1, 0⟩ then some ⟨5000, [], 10, false, false⟩ else none, 0, false⟩)
        [.spend ⟨1, 0⟩])).1.parent) ⟨1, 0⟩
      = none ∧
    viewGet (applyOps (freshCache
        ⟨fun q => if q = ⟨1, 0⟩ then some ⟨5000, [], 10, false, false⟩ else none, 0, false⟩)
        [.spend ⟨1, 0⟩]) ⟨1, 0⟩
      ≠ viewGet (freshCache (flush (applyOps (freshCache
        ⟨fun q => if q = ⟨1, 0⟩ then some ⟨5000, [], 10, false, false⟩ else none, 0, false⟩)
        [.spend ⟨1, 0⟩])).1.parent) ⟨1, 0⟩ := by
  refine ⟨by decide, by decide, by decide⟩

/-- Concrete witness for the amended C7 theorem: a fresh cache over a
one-coin parent, the sequence [spend (1,0)], compared at the touched key. -/
theorem roundTrip_after_flush_witness :
    (cacheWF (freshCache
        ⟨fun q => if q = ⟨1, 0⟩ then some ⟨5000, [], 10, false, false⟩ else none, 0, false⟩) ∧
     (freshCache
        ⟨fun q => if q = ⟨1, 0⟩ then some ⟨5000, [], 10, false, false⟩ else none, 0,
          false⟩).parent.fails = false) ∧
    (haveCoin (freshCache (flush (applyOps (freshCache
        ⟨fun q => if q = ⟨1, 0⟩ then some ⟨5000, [], 10, false, false⟩ else none, 0, false⟩)
        [.spend ⟨1, 0⟩])).1.parent) ⟨1, 0⟩
       = haveCoin (applyOps (freshCache
        ⟨fun q => if q = ⟨1, 0⟩ then some ⟨5000, [], 10, false, false⟩ else none, 0, false⟩)
        [.spend ⟨1, 0⟩]) ⟨1, 0⟩ ∧
     spendable (viewGet (freshCache (flush (applyOps (freshCache
        ⟨fun q => if q = ⟨1, 0⟩ then some ⟨5000, [], 10, false, false⟩ else none, 0, false⟩)
        [.spend ⟨1, 0⟩])).1.parent) ⟨1, 0⟩)
       = spendable (viewGet (applyOps (freshCache
        ⟨fun q => if q = ⟨1, 0⟩ then some ⟨5000, [], 10, false, false⟩ else none, 0, false⟩)
        [.spend ⟨1, 0⟩]) ⟨1, 0⟩)) := by
  have h0 : cacheWF (freshCache
      ⟨fun q => if q = ⟨1, 0⟩ then some ⟨5000, [], 10, false, false⟩ else none, 0, false⟩) := by
    refine ⟨List.Pairwise.nil, ?_, ?_⟩
    · intro k coin h
      simp only [freshCache] at h
      by_cases hk : k = ⟨1, 0⟩
      · rw [if_pos hk] at h
        injection h with hh
        rw [← hh]
      · rw [if_neg hk] at h
        cases h
    · intro k e h
      cases h
  exact ⟨⟨h0, rfl⟩,
    roundTrip_after_flush (freshCache
      ⟨fun q => if q = ⟨1, 0⟩ then some ⟨5000, [], 10, false, false⟩ else none, 0, false⟩)
      [.spend ⟨1, 0⟩] ⟨1, 0⟩ h0 rfl⟩

/-! ## AccessByTxid (src/logic/utxo/coinscache.go) -/

/-- The outcome of the AccessByTxid scan.  `found` is the Go `return
alternate`; `exhausted` is the final `return nil` after the index bound;
`nilDeref` models the nil-pointer dereference that occurs when `IsSpent` is
invoked on the nil coin a failed `GetCoin` lookup returns (the source checks
`!alternate.IsSpent()` without checking that a coin was found). -/
inductive AccessResult where
  | found (c : Coin)
  | exhausted
  | nilDeref
  deriving DecidableEq, Repr

/-- The loop of `AccessByTxid`, translated from src/logic/utxo/coinscache.go:
while `int(out.Index) < 11000`, call `GetCoin` (which threads the cache
state, since a parent hit materializes an entry) and test `IsSpent` on the
result with no nil check.  `fuel` counts the remaining iterations of the
bounded loop. -/
def accessLoop (hash : Nat) : Nat → CoinsCache → Nat → AccessResult
  | 0, _, _ => .exhausted
  | fuel + 1, c, idx =>
    match getCoin c ⟨hash, idx⟩ with
    | (none, _) => .nilDeref
    | (some coin, c') =>
      if coin.IsSpent then accessLoop hash fuel c' (idx + 1) else .found coin

/-- AccessByTxid translated from src/logic/utxo/coinscache.go: scan
(hash, 0), (hash, 1), … while the index is below 11000, returning the first
coin that is not spent, and nil after the bound. -/
def AccessByTxid (c : CoinsCache) (hash : Nat) : AccessResult :=
  accessLoop hash 11000 c 0

/-- The observation viewGet rewritten as a one-level case split. -/
theorem viewGet_eq (c : CoinsCache) (k : OutPoint) :
    viewGet c k = (match entLookup c.cacheCoins k with
                   | some e => some e.coin
                   | none => c.parent.store k) := by
  unfold viewGet getCoin
  cases entLookup c.cacheCoins k with
  | some e => rfl
  | none => cases c.parent.store k <;> rfl

/-- Materialization by getCoin does not change any getCoin answer. -/
theorem viewGet_getCoin_snd (c : CoinsCache) (k k' : OutPoint) :
    viewGet (getCoin c k).2 k' = viewGet c k' := by
  cases hle : entLookup c.cacheCoins k with
  | some e =>
    rw [show (getCoin c k).2 = c by simp [getCoin, hle]]
  | none =>
    cases hsk : c.parent.store k with
    | none =>
      rw [show (getCoin c k).2 = c by simp [getCoin, hle, hsk]]
    | some coin =>
      have hmap2 : (getCoin c k).2.cacheCoins = entSet c.cacheCoins k ⟨coin, false, false⟩ := by
        simp [getCoin, hle, hsk]
      have hpar2 : (getCoin c k).2.parent = c.parent := by
        simp [getCoin, hle, hsk]
      rw [viewGet_eq, viewGet_eq, hmap2, hpar2]
      by_cases hk : k' = k
      · subst hk
        rw [entLookup_entSet_self, hle]
        simp [hsk]
      · rw [entLookup_entSet_ne _ _ _ _ hk]

/-- Full characterization of the bounded scan, assuming every index in the
scanned window has a present coin: either some first unspent coin is found,
or every coin in the window is spent and the scan is exhausted. -/
theorem accessLoop_spec (hash : Nat) :
    ∀ (fuel : Nat) (c : CoinsCache) (idx : Nat),
    (∀ j, idx ≤ j → j < idx + fuel → (viewGet c ⟨hash, j⟩).isSome = true) →
    (∃ i coin, idx ≤ i ∧ i < idx + fuel ∧ viewGet c ⟨hash, i⟩ = some coin ∧
       coin.spent = false ∧
       (∀ j, idx ≤ j → j < i → ∃ cj, viewGet c ⟨hash, j⟩ = some cj ∧ cj.spent = true) ∧
       accessLoop hash fuel c idx = .found coin)
    ∨ ((∀ j, idx ≤ j → j < idx + fuel →
          ∃ cj, viewGet c ⟨hash, j⟩ = some cj ∧ cj.spent = true) ∧
       accessLoop hash fuel c idx = .exhausted) := by
  intro fuel
  induction fuel with
  | zero =>
    intro c idx _
    right
    refine ⟨?_, rfl⟩
    intro j h1 h2
    omega
  | succ fuel ih =>
    intro c idx hp
    have hidx : (viewGet c ⟨hash, idx⟩).isSome = true := hp idx le_rfl (by omega)
    cases hv : viewGet c ⟨hash, idx⟩ with
    | none => rw [hv] at hidx; cases hidx
    | some coin =>
      have hpair : getCoin c ⟨hash, idx⟩ = (some coin, (getCoin c ⟨hash, idx⟩).2) := by
        have h1 : (getCoin c ⟨hash, idx⟩).1 = some coin := hv
        rw [← h1]
      have hbody : accessLoop hash (fuel + 1) c idx
          = (if coin.IsSpent then
               accessLoop hash fuel (getCoin c ⟨hash, idx⟩).2 (idx + 1)
             else .found coin) := by
        simp only [accessLoop]
        rw [hpair]
      have hinv : ∀ j : Nat, viewGet (getCoin c ⟨hash, idx⟩).2 ⟨hash, j⟩
          = viewGet c ⟨hash, j⟩ :=
        fun j => viewGet_getCoin_snd c ⟨hash, idx⟩ ⟨hash, j⟩
      by_cases hs : coin.spent = true
      · have hspent : coin.IsSpent = true := hs
        have hp2 : ∀ j, idx + 1 ≤ j → j < (idx + 1) + fuel →
            (viewGet (getCoin c ⟨hash, idx⟩).2 ⟨hash, j⟩).isSome = true := by
          intro j h1 h2
          rw [hinv j]
          exact hp j (by omega) (by omega)
        rcases ih (getCoin c ⟨hash, idx⟩).2 (idx + 1) hp2 with
          ⟨i, coin2, hi1, hi2, hvi, hsi, hprev, hres⟩ | ⟨hall, hres⟩
        · left
          refine ⟨i, coin2, by omega, by omega, ?_, hsi, ?_, ?_⟩
          · rw [← hinv i]; exact hvi
          · intro j h1 h2
            by_cases hj : j = idx
            · subst hj; exact ⟨coin, hv, hs⟩
            · obtain ⟨cj, hcj1, hcj2⟩ := hprev j (by omega) h2
              exact ⟨cj, by rw [← hinv j]; exact hcj1, hcj2⟩
          · rw [hbody, if_pos hspent]; exact hres
        · right
          refine ⟨?_, ?_⟩
          · intro j h1 h2
            by_cases hj : j = idx
            · subst hj; exact ⟨coin, hv, hs⟩
            · obtain ⟨cj, hcj1, hcj2⟩ := hall j (by omega) (by omega)
              exact ⟨cj, by rw [← hinv j]; exact hcj1, hcj2⟩
          · rw [hbody, if_pos hspent]; exact hres
      · have hsf : coin.spent = false := by simpa using hs
        have hnspent : ¬ coin.IsSpent = true := by
          show ¬ coin.spent = true
          simp [hsf]
        left
        refine ⟨idx, coin, le_rfl, by omega, hv, hsf, ?_, ?_⟩
        · intro j h1 h2; omega
        · rw [hbody, if_neg hnspent]

/-! ## C8: safety of the unchecked IsSpent call -/

/-- C8 (amended): the IsSpent call is safe — the scan never dereferences a
nil coin — provided the view holds a present coin at (hash, i) for every
index i below the 11000 scan bound; in general GetCoin can yield an absent
coin on a lookup the scan performs, and then the unchecked IsSpent call
dereferences nil. -/
theorem accessByTxid_no_nil_deref (c : CoinsCache) (hash : Nat)
    (hp : ∀ i, i < 11000 → (viewGet c ⟨hash, i⟩).isSome = true) :
    AccessByTxid c hash ≠ .nilDeref := by
  have h := accessLoop_spec hash 11000 c 0
    (by intro j _ h2; exact hp j (by omega))
  rcases h with ⟨i, coin, _, _, _, _, _, h6⟩ | ⟨_, h6⟩ <;>
    · rw [AccessByTxid, h6]
      intro hc
      cases hc

/-- C8 counterexample to the claim as stated: on an empty cache over an
empty parent, the very first lookup the scan performs returns absent, and
the scan hits the nil dereference. -/
theorem accessByTxid_nil_deref_counterexample :
    (getCoin (freshCache ⟨fun _ => none, 0, false⟩) ⟨0, 0⟩).1 = none ∧
    AccessByTxid (freshCache ⟨fun _ => none, 0, false⟩) 0 = .nilDeref := by
  exact ⟨rfl, rfl⟩

/-- Concrete witness for the amended C8 theorem: a parent holding a coin at
every OutPoint makes every scanned lookup present. -/
theorem accessByTxid_no_nil_deref_witness :
    (∀ i, i < 11000 →
      (viewGet (freshCache ⟨fun _ => some ⟨1, [], 0, false, false⟩, 0, false⟩)
        ⟨3, i⟩).isSome = true) ∧
    AccessByTxid (freshCache ⟨fun _ => some ⟨1, [], 0, false, false⟩, 0, false⟩) 3
      ≠ .nilDeref := by
  have hp : ∀ i, i < 11000 →
      (viewGet (freshCache ⟨fun _ => some ⟨1, [], 0, false, false⟩, 0, false⟩)
        ⟨3, i⟩).isSome = true := by
    intro i _
    rfl
  exact ⟨hp, accessByTxid_no_nil_deref _ 3 hp⟩

/-! ## C9: scan order and result of AccessByTxid -/

/-- C9 (amended): provided the view holds a present coin at (hash, i) for
every i < 11000, AccessByTxid examines indices 0, 1, 2, … in strictly
increasing order and returns the coin at the first index whose coin is
unspent (every smaller index holding a spent coin), or nil once the index
reaches 11000 with every scanned coin spent; the bounded fuel means it
performs at most 11000 lookups.  Without the presence hypothesis the scan
can instead hit the nil dereference before reaching the first unspent
index. -/
theorem accessByTxid_first_unspent (c : CoinsCache) (hash : Nat)
    (hp : ∀ i, i < 11000 → (viewGet c ⟨hash, i⟩).isSome = true) :
    (∃ i coin, i < 11000 ∧ viewGet c ⟨hash, i⟩ = some coin ∧ coin.spent = false ∧
       (∀ j, j < i → ∃ cj, viewGet c ⟨hash, j⟩ = some cj ∧ cj.spent = true) ∧
       AccessByTxid c hash = .found coin)
    ∨ ((∀ i, i < 11000 → ∃ ci, viewGet c ⟨hash, i⟩ = some ci ∧ ci.spent = true) ∧
       AccessByTxid c hash = .exhausted) := by
  have h := accessLoop_spec hash 11000 c 0
    (by intro j _ h2; exact hp j (by omega))
  rcases h with ⟨i, coin, h1, h2, h3, h4, h5, h6⟩ | ⟨h1, h2⟩
  · left
    exact ⟨i, coin, by omega, h3, h4, fun j hj => h5 j (by omega) hj, h6⟩
  · right
    exact ⟨fun i hi => h1 i (by omega) (by omega), h2⟩

/-- C9 counterexample to the claim as stated: the view holds an unspent coin
at index 1 and nothing at index 0; the first index whose coin is unspent is
1, but the scan dereferences nil at index 0 instead of returning that
coin. -/
theorem accessByTxid_first_unspent_counterexample :
    viewGet (freshCache
        ⟨fun q => if q = ⟨7, 1⟩ then some ⟨42, [], 1, false, false⟩ else none, 0, false⟩)
      ⟨7, 0⟩ = none ∧
    viewGet (freshCache
        ⟨fun q => if q = ⟨7, 1⟩ then some ⟨42, [], 1, false, false⟩ else none, 0, false⟩)
      ⟨7, 1⟩ = some ⟨42, [], 1, false, false⟩ ∧
    (⟨42, [], 1, false, false⟩ : Coin).spent = false ∧
    AccessByTxid (freshCache
        ⟨fun q => if q = ⟨7, 1⟩ then some ⟨42, [], 1, false, false⟩ else none, 0, false⟩)
      7 = .nilDeref ∧
    AccessByTxid (freshCache
        ⟨fun q => if q = ⟨7, 1⟩ then some ⟨42, [], 1, false, false⟩ else none, 0, false⟩)
      7 ≠ .found ⟨42, [], 1, false, false⟩ := by
  refine ⟨by decide, by decide, by decide, by decide, by decide⟩

/-- Concrete witness for the amended C9 theorem. -/
theorem accessByTxid_first_unspent_witness :
    (∀ i, i < 11000 →
      (viewGet (freshCache ⟨fun _ => some ⟨1, [], 0, false, false⟩, 0, false⟩)
        ⟨5, i⟩).isSome = true) ∧
    ((∃ i coin, i < 11000 ∧
        viewGet (freshCache ⟨fun _ => some ⟨1, [], 0, false, false⟩, 0, false⟩)
          ⟨5, i⟩ = some coin ∧ coin.spent = false ∧
        (∀ j, j < i → ∃ cj,
          viewGet (freshCache ⟨fun _ => some ⟨1, [], 0, false, false⟩, 0, false⟩)
            ⟨5, j⟩ = some cj ∧ cj.spent = true) ∧
        AccessByTxid (freshCache ⟨fun _ => some ⟨1, [], 0, false, false⟩, 0, false⟩) 5
          = .found coin)
     ∨ ((∀ i, i < 11000 → ∃ ci,
          viewGet (freshCache ⟨fun _ => some ⟨1, [], 0, false, false⟩, 0, false⟩)
            ⟨5, i⟩ = some ci ∧ ci.spent = true) ∧
        AccessByTxid (freshCache ⟨fun _ => some ⟨1, [], 0, false, false⟩, 0, false⟩) 5
          = .exhausted)) := by
  have hp : ∀ i, i < 11000 →
      (viewGet (freshCache ⟨fun _ => some ⟨1, [], 0, false, false⟩, 0, false⟩)
        ⟨5, i⟩).isSome = true := by
    intro i _
    rfl
  exact ⟨hp, accessByTxid_first_unspent _ 5 hp⟩

/-! ## C10: Wallet.GetMinimumFee (src/model/wallet/wallet.go) -/

/-- GetMinimumFee translated from src/model/wallet/wallet.go (lines
274-296).  The collaborator fee computations live outside src/ and the spec
does not describe them, so they enter as the integer fee values they produce
for the requested byte size: `payFee` is `w.payTxFee.GetFee(byteSize)`,
`mempoolMinFee` is `mempool minFeeRate.GetFee(byteSize)`, `fallbackFeeAmt`
is `fallbackFee.GetFee(byteSize)`, `cfgMinFee` is the fee implied by the
configured `conf.Cfg.Mempool.MinFeeRate`, and `maxFee` is the constant
`util.MaxFee`.  `util.MaxI` and `util.MinI` are max and min on int64. -/
def getMinimumFee (payFee mempoolMinFee fallbackFeeAmt cfgMinFee maxFee : Int) : Int :=
  let feeNeeded :=
    if payFee = 0 then
      (if mempoolMinFee = 0 then fallbackFeeAmt else mempoolMinFee)
    else payFee
  min (max feeNeeded cfgMinFee) maxFee

/-- C10 (amended): GetMinimumFee computes exactly
min(max(estimate, configuredMinimum), MaxFee); it never exceeds MaxFee, and
it is at least the configured minimum whenever that configured minimum does
not itself exceed MaxFee.  (When the configured minimum exceeds the MaxFee
constant, the result is MaxFee, below the configured minimum.) -/
theorem getMinimumFee_clamped (payFee mempoolMinFee fallbackFeeAmt cfgMinFee maxFee : Int)
    (h : cfgMinFee ≤ maxFee) :
    getMinimumFee payFee mempoolMinFee fallbackFeeAmt cfgMinFee maxFee
      = min (max (if payFee = 0 then
            (if mempoolMinFee = 0 then fallbackFeeAmt else mempoolMinFee)
          else payFee) cfgMinFee) maxFee ∧
    getMinimumFee payFee mempoolMinFee fallbackFeeAmt cfgMinFee maxFee ≤ maxFee ∧
    cfgMinFee ≤ getMinimumFee payFee mempoolMinFee fallbackFeeAmt cfgMinFee maxFee := by
  refine ⟨rfl, ?_, ?_⟩
  · exact min_le_right _ _
  · unfold getMinimumFee
    exact le_min (le_max_right _ _) h

/-- C10 counterexample to the claim as stated: with a configured minimum fee
of 20000000 above a MaxFee of 10000000 (the MinFeeRate configuration value
is unbounded while util.MaxFee is a fixed constant), the returned fee is
MaxFee, which is below the configured minimum — yet it still equals the
min-max clamp. -/
theorem getMinimumFee_counterexample :
    getMinimumFee 0 0 5000 20000000 10000000 = 10000000 ∧
    ¬ (20000000 : Int) ≤ getMinimumFee 0 0 5000 20000000 10000000 := by
  constructor <;> decide

/-- Concrete witness for the amended C10 theorem. -/
theorem getMinimumFee_clamped_witness :
    ((1000 : Int) ≤ 10000000) ∧
    (getMinimumFee 0 0 5000 1000 10000000
       = min (max (if (0 : Int) = 0 then
             (if (0 : Int) = 0 then (5000 : Int) else 0)
           else 0) 1000) 10000000 ∧
     getMinimumFee 0 0 5000 1000 10000000 ≤ 10000000 ∧
     (1000 : Int) ≤ getMinimumFee 0 0 5000 1000 10000000) := by
  exact ⟨by decide, getMinimumFee_clamped 0 0 5000 1000 10000000 (by decide)⟩
